import Mathlib

/-!
Verification development for the sanzang library (`sanzang.py`).

Texts are modelled as `List Char`.  Python's fallible operations
(sequence indexing, tuple unpacking, exceptions) are modelled with
`Option`/`Except`: a `none`/`.error` result corresponds to the Python
function raising.  Machine-level details (files, buffering) are
modelled by explicit lists of lines.
-/

set_option maxRecDepth 20000

/-! ## Python string primitives -/

/-- Characters for which Python's `str.isspace()` is `True`
(the default strip set of `str.strip`). -/
def pyIsSpace (c : Char) : Bool :=
  [9, 10, 11, 12, 13, 28, 29, 30, 31, 32, 133, 160, 5760,
   8192, 8193, 8194, 8195, 8196, 8197, 8198, 8199, 8200, 8201, 8202,
   8232, 8233, 8239, 8287, 12288].contains c.toNat

/-- Python `s.rstrip()`. -/
def pyRstrip (s : List Char) : List Char :=
  (s.reverse.dropWhile pyIsSpace).reverse

/-- Python `s.strip()`. -/
def pyStrip (s : List Char) : List Char :=
  (pyRstrip s).dropWhile pyIsSpace

/-- Python `s.split(sep)` for a one-character separator. -/
def splitSep (sep : Char) : List Char → List (List Char)
  | [] => [[]]
  | c :: cs =>
    if c = sep then [] :: splitSep sep cs
    else
      match splitSep sep cs with
      | [] => [[c]]
      | l :: ls => (c :: l) :: ls

/-- Inverse of `splitSep '\n'`: join lines with a newline between them. -/
def joinLines : List (List Char) → List Char
  | [] => []
  | [l] => l
  | l :: l2 :: ls => l ++ '\n' :: joinLines (l2 :: ls)

/-- Python's substring test `pat in s` (always true for the empty pattern). -/
def isSubstr (pat : List Char) : List Char → Bool
  | [] => pat.isEmpty
  | c :: cs => pat.isPrefixOf (c :: cs) || isSubstr pat cs

/-- One left-to-right non-overlapping replacement scan, fuelled so that the
definition is structurally recursive (the fuel bounds the number of steps;
`pyReplace` always supplies enough). Only used with a nonempty pattern. -/
def replaceFuel (pat rep : List Char) : Nat → List Char → List Char
  | _, [] => []
  | 0, s => s
  | f + 1, c :: cs =>
    if pat.isPrefixOf (c :: cs) then rep ++ replaceFuel pat rep f ((c :: cs).drop pat.length)
    else c :: replaceFuel pat rep f cs

/-- Python `s.replace(pat, rep)`: replace every non-overlapping occurrence,
leftmost first.  For the empty pattern Python inserts `rep` at every
position, including both ends. -/
def pyReplace (s pat rep : List Char) : List Char :=
  if pat.isEmpty then rep ++ s.flatMap (fun c => c :: rep)
  else replaceFuel pat rep s.length s

/-- Python `s.lower()` (ASCII case mapping, matching `Char.toLower`). -/
def pyLower (s : List Char) : List Char := s.map Char.toLower

/-- Python `s.upper()` (ASCII case mapping, matching `Char.toUpper`). -/
def pyUpper (s : List Char) : List Char := s.map Char.toUpper

/-! ## `reflow` (sanzang.py lines 35-76)

The three regular expressions of the source are interpreted on a
line-by-line / pairwise basis; every pattern is newline-free, so a
multiline `re.sub` acts independently on each line, and in the two
pairwise passes the second character of a match can never begin another
match, so global non-overlapping substitution coincides with the
pairwise scan. -/

/-- First character class of the margin regex `^[T|X].*?║`
(inside a character class the `|` is a literal pipe). -/
def margChar (c : Char) : Bool := c = 'T' || c = '|' || c = 'X'

/-- Action of `re.sub(r'^[T|X].*?║', '', line)` on one line: if the line
begins with `T`, `|` or `X` and contains `║`, remove everything up to and
including the first `║`. -/
def stripLine (l : List Char) : List Char :=
  match l with
  | [] => []
  | c :: rest =>
    if margChar c && rest.contains '║' then (rest.dropWhile (fun d => !(d = '║'))).tail
    else c :: rest

/-- `re.sub(r'^[T|X].*?║', '', text, flags=re.M)`. -/
def stripMargins (t : List Char) : List Char :=
  joinLines ((splitSep '\n' t).map stripLine)

/-- Action of `re.sub(r'^　(.{1,15})$', '　\\1　', line)` on one line. -/
def poetryLine (l : List Char) : List Char :=
  match l with
  | [] => []
  | c :: rest =>
    if c = '　' && decide (1 ≤ rest.length ∧ rest.length ≤ 15) then (c :: rest) ++ ['　']
    else c :: rest

/-- `re.sub(r'^　(.{1,15})$', '　\\1　', text, flags=re.M)`. -/
def poetryPass (t : List Char) : List Char :=
  joinLines ((splitSep '\n' t).map poetryLine)

/-- `text.replace('\n', '')`. -/
def collapseNl (t : List Char) : List Char := pyReplace t ['\n'] []

/-- The "ender" character class `：，；。？！」』.;:?`. -/
def isEnder (c : Char) : Bool :=
  c = '：' || c = '，' || c = '；' || c = '。' || c = '？' || c = '！' ||
  c = '」' || c = '』' || c = '.' || c = ';' || c = ':' || c = '?'

/-- The "starter" character class `「『　\t`. -/
def isStarter (c : Char) : Bool := c = '「' || c = '『' || c = '　' || c = '\t'

/-- `re.sub` pass: ender followed by non-ender gets a newline in between. -/
def pass4 : List Char → List Char
  | [] => []
  | [c] => [c]
  | c1 :: c2 :: rest =>
    (if isEnder c1 && !(isEnder c2) then [c1, '\n'] else [c1]) ++ pass4 (c2 :: rest)

/-- `re.sub` pass: non-starter, non-ender, non-newline followed by a starter
gets a newline in between. -/
def pass5 : List Char → List Char
  | [] => []
  | [c] => [c]
  | c1 :: c2 :: rest =>
    (if !(isStarter c1) && !(isEnder c1) && !(c1 = '\n') && isStarter c2
     then [c1, '\n'] else [c1]) ++ pass5 (c2 :: rest)

/-- Final adjustment: append a newline when nonempty and not already
newline-terminated. -/
def addNL (t : List Char) : List Char :=
  if 0 < t.length ∧ t.getLast? ≠ some '\n' then t ++ ['\n'] else t

/-- `reflow` from sanzang.py. -/
def reflow (text : List Char) : List Char :=
  addNL (pass5 (pass4 (collapseNl (poetryPass (stripMargins text)))))

/-! ## `read_table` (sanzang.py lines 109-131) -/

/-- The record a table line yields: split on `|`, strip each field. -/
def fields (line : List Char) : List (List Char) :=
  (splitSep '|' line).map pyStrip

/-- The message of the `RuntimeError` raised on a bad record. -/
def tableErrMsg (line : List Char) : List Char :=
  ("Table error: ".toList) ++ pyStrip line

/-- The loop of `read_table`: `none` plays the role of `width == -1`. -/
def readTableAux :
    List (List Char) → Option Nat → List (List (List Char)) →
    Except (List Char) (List (List (List Char)))
  | [], _, tab => .ok tab
  | line :: rest, some w, tab =>
    if (fields line).length = w then readTableAux rest (some w) (tab ++ [fields line])
    else if pyStrip line ≠ [] then .error (tableErrMsg line)
    else readTableAux rest (some w) tab
  | line :: rest, none, tab =>
    if 1 < (fields line).length then
      readTableAux rest (some (fields line).length) (tab ++ [fields line])
    else if pyStrip line ≠ [] then .error (tableErrMsg line)
    else readTableAux rest none tab

/-- `read_table` from sanzang.py, on the contents of the file object. -/
def read_table (input : List Char) : Except (List Char) (List (List (List Char))) :=
  readTableAux (splitSep '\n' input) none []

/-! ## `subst` (sanzang.py lines 134-149) -/

/-- One iteration of the `subst` loop.  Python's `term1, term2 = rec`
unpacking raises unless the record has exactly two fields. -/
def substRec (tx : List Char) (rec : List (List Char)) : Option (List Char) :=
  match rec with
  | [t1, t2] =>
    some (pyReplace (pyReplace (pyReplace tx t1 t2) (pyLower t1) (pyLower t2))
            (pyUpper t1) (pyUpper t2))
  | _ => none

/-- `subst` from sanzang.py. -/
def subst (table : List (List (List Char))) (text : List Char) : Option (List Char) :=
  table.foldlM substRec text

/-! ## `vocab` (sanzang.py lines 173-188) -/

/-- The sentinel character `'\x1f'`. -/
def US : Char := '\x1f'

/-- The loop of `vocab` over the working copy.  `rec.head?` models the
fallible `rec[0]`. -/
def vocabAux : List (List (List Char)) → List Char → Option (List (List (List Char)))
  | [], _ => some []
  | rec :: rest, copy => do
    let t0 ← rec.head?
    if isSubstr t0 copy then
      let tailRules ← vocabAux rest (pyReplace copy t0 [US])
      pure (rec :: tailRules)
    else vocabAux rest copy

/-- `vocab` from sanzang.py. -/
def vocab (table : List (List (List Char))) (text : List Char) :
    Option (List (List (List Char))) :=
  vocabAux table text

/-! ## `tr_raw` (sanzang.py lines 191-213) -/

/-- One iteration of the inner `for rec in rules` loop of `tr_raw`:
`trans.replace(rec[0], '\x1f' + rec[col_no] + '\x1f')`. -/
def transStep (colNo : Nat) (tr : List Char) (rec : List (List Char)) :
    Option (List Char) := do
  let t0 ← rec.head?
  let tc ← rec.get? colNo
  pure (pyReplace tr t0 (US :: (tc ++ [US])))

/-- One column of `tr_raw`: apply every rule, then collapse the sentinels. -/
def transCol (rules : List (List (List Char))) (text : List Char) (colNo : Nat) :
    Option (List Char) := do
  let tr ← List.foldlM (transStep colNo) text rules
  pure (pyReplace (pyReplace (pyReplace tr [US, '\n'] ['\n']) [US, US] [' ']) [US] [' '])

/-- `tr_raw` from sanzang.py.  `table.head?` models the fallible
`table[0]`. -/
def tr_raw (table : List (List (List Char))) (text : List Char) :
    Option (List (List Char)) := do
  let rules ← vocab table text
  let cleaned := pyReplace text [US] []
  let first ← table.head?
  let cols ← List.mapM (transCol rules cleaned) (List.range' 1 (first.length - 1))
  pure (cleaned :: cols)

/-! ## `tr_fmt` (sanzang.py lines 216-237) -/

/-- Decimal digit character. -/
def digitChar (d : Nat) : Char := Char.ofNat (48 + d)

/-- Fuelled decimal rendering (the fuel bounds the number of divisions). -/
def toDecAux : Nat → Nat → List Char
  | 0, _ => []
  | f + 1, n => if n < 10 then [digitChar n] else toDecAux f (n / 10) ++ [digitChar (n % 10)]

/-- Python's `'%d' % n` for a natural number. -/
def toDec (n : Nat) : List Char := toDecAux (n + 1) n

/-- The text of one listing line before its newline:
`'%d.%d|%s' % (lineNum, colNum, s)`. -/
def fmtBody (lineNum colNum : Nat) (s : List Char) : List Char :=
  toDec lineNum ++ '.' :: (toDec colNum ++ '|' :: s)

/-- One listing line of `tr_fmt`:
`'%d.%d|%s\n' % (start + line_no, col_idx + 1, collection[col_idx][line_no])`.
The fallible `collection[col_idx][line_no]` indexing is modelled with
`List.get?`. -/
def fmtCell (colls : List (List (List Char))) (start lineNo colIdx : Nat) :
    Option (List Char) := do
  let col ← colls.get? colIdx
  let line ← col.get? lineNo
  pure (fmtBody (start + lineNo) (colIdx + 1) line ++ ['\n'])

/-- One group of `tr_fmt`: the inner `for col_idx in range(0, len(table[0]))`
loop followed by the blank separator line. -/
def fmtGroup (colls : List (List (List Char))) (width start lineNo : Nat) :
    Option (List Char) := do
  let cells ← List.mapM (fmtCell colls start lineNo) (List.range width)
  pure (cells.flatten ++ ['\n'])

/-- `tr_fmt` from sanzang.py. -/
def tr_fmt (table : List (List (List Char))) (text : List Char) (start : Nat) :
    Option (List Char) := do
  let collection ← tr_raw table text
  let colls := collection.map (fun s => splitSep '\n' (pyRstrip s))
  let first ← table.head?
  let c0 ← colls.head?
  let groups ← List.mapM (fmtGroup colls first.length start) (List.range c0.length)
  pure groups.flatten

/-! ## `tr_file` (sanzang.py lines 240-260) -/

/-- Python's line iteration over a text: split after every newline, a final
fragment without a newline is its own line, no empty final line. -/
def pyLines : List Char → List (List Char)
  | [] => []
  | c :: cs =>
    if c = '\n' then ['\n'] :: pyLines cs
    else
      match pyLines cs with
      | [] => [[c]]
      | l :: ls => (c :: l) :: ls

/-- The loop of `tr_file`: accumulate lines, flush every 100th line with
offset `line_no - buffer_size + 1`.  Returns the written output together
with the remaining buffer and final line counter. -/
def trFileAux (table : List (List (List Char))) :
    List (List Char) → List Char → Nat → List Char →
    Option (List Char × List Char × Nat)
  | [], buf, lineNo, acc => some (acc, buf, lineNo)
  | line :: rest, buf, lineNo, acc =>
    let buf2 := buf ++ line
    if lineNo % 100 = 0 then
      match tr_fmt table buf2 ((lineNo - 100) + 1) with
      | none => none
      | some out => trFileAux table rest [] (lineNo + 1) (acc ++ out)
    else trFileAux table rest buf2 (lineNo + 1) acc

/-- `tr_file` from sanzang.py: the full output written to `fd_out`. -/
def tr_file (table : List (List (List Char))) (input : List Char) :
    Option (List Char) := do
  let st ← trFileAux table (pyLines input) [] 1 []
  let out ← tr_fmt table st.2.1 (st.2.2 - (st.2.1.count '\n'))
  pure (st.1 ++ out)

/-! ## Basic lemmas about the string primitives -/

theorem splitSep_ne_nil (sep : Char) (t : List Char) : splitSep sep t ≠ [] := by
  cases t with
  | nil => simp [splitSep]
  | cons c cs =>
    simp only [splitSep]
    split
    · simp
    · split <;> simp

theorem joinLines_splitSep (t : List Char) : joinLines (splitSep '\n' t) = t := by
  induction t with
  | nil => rfl
  | cons c cs ih =>
    by_cases hc : c = '\n'
    · subst hc
      rcases h : splitSep '\n' cs with _ | ⟨l, ls⟩
      · exact absurd h (splitSep_ne_nil _ _)
      · rw [h] at ih
        simp only [splitSep, if_pos rfl, h, joinLines]
        simpa using ih
    · rcases h : splitSep '\n' cs with _ | ⟨l, ls⟩
      · exact absurd h (splitSep_ne_nil _ _)
      · rw [h] at ih
        simp only [splitSep, if_neg hc, h]
        cases ls with
        | nil => simpa [joinLines] using ih
        | cons l2 ls2 => simpa [joinLines] using ih

theorem mem_splitSep_not_contains (sep : Char) (t : List Char) :
    ∀ l ∈ splitSep sep t, l.contains sep = false := by
  induction t with
  | nil =>
    intro l hl
    simp only [splitSep, List.mem_singleton] at hl
    simp [hl]
  | cons c cs ih =>
    intro l hl
    by_cases hc : c = sep
    · have he : splitSep sep (c :: cs) = [] :: splitSep sep cs := by
        rw [splitSep, if_pos hc]
      rw [he] at hl
      rcases List.mem_cons.mp hl with h | h
      · simp [h]
      · exact ih l h
    · rcases h : splitSep sep cs with _ | ⟨l0, ls⟩
      · exact absurd h (splitSep_ne_nil _ _)
      · rw [splitSep, if_neg hc, h] at hl
        rcases List.mem_cons.mp hl with h2 | h2
        · subst h2
          have h0 : l0.contains sep = false := ih l0 (by rw [h]; exact List.mem_cons_self _ _)
          simp only [List.contains_cons, h0, Bool.or_false]
          simpa using Ne.symm hc
        · exact ih l (by rw [h]; exact List.mem_cons_of_mem _ h2)

theorem splitSep_of_not_contains (sep : Char) (l : List Char)
    (h : l.contains sep = false) : splitSep sep l = [l] := by
  induction l with
  | nil => rfl
  | cons c cs ih =>
    simp only [List.contains_cons, Bool.or_eq_false_iff, beq_eq_false_iff_ne] at h
    rw [splitSep, if_neg (Ne.symm h.1), ih h.2]

theorem splitSep_append (sep : Char) (l r : List Char)
    (h : l.contains sep = false) : splitSep sep (l ++ sep :: r) = l :: splitSep sep r := by
  induction l with
  | nil => simp [splitSep]
  | cons c cs ih =>
    simp only [List.contains_cons, Bool.or_eq_false_iff, beq_eq_false_iff_ne] at h
    rw [List.cons_append, splitSep, if_neg (Ne.symm h.1), ih h.2]

theorem isSubstr_nil_left (s : List Char) : isSubstr [] s = true := by
  cases s <;> simp [isSubstr, List.isPrefixOf]

theorem replaceFuel_of_not_substr (pat rep : List Char) :
    ∀ (f : Nat) (s : List Char), s.length ≤ f → isSubstr pat s = false →
      replaceFuel pat rep f s = s := by
  intro f
  induction f with
  | zero =>
    intro s hs _
    have h : s.length = 0 := Nat.le_zero.mp hs
    rw [List.length_eq_zero] at h
    subst h
    rfl
  | succ f ih =>
    intro s hs hn
    cases s with
    | nil => rfl
    | cons c cs =>
      simp only [isSubstr, Bool.or_eq_false_iff] at hn
      rw [replaceFuel, if_neg (by simp [hn.1]),
        ih cs (by simpa using Nat.le_of_succ_le_succ hs) hn.2]

theorem pyReplace_of_not_substr (s pat rep : List Char)
    (h : isSubstr pat s = false) : pyReplace s pat rep = s := by
  have hp : pat ≠ [] := by
    intro he
    rw [he, isSubstr_nil_left] at h
    exact Bool.noConfusion h
  rw [pyReplace, if_neg (by simpa using hp)]
  exact replaceFuel_of_not_substr pat rep s.length s le_rfl h

/-! ## C1 and C2: the two Translator / Substitution example scenarios -/

/-- Counterexample for C1: on table `[[A,X],[B,Y]]`, text `"AB\n"`, start 1,
the second numbered line carries a leading space (`"1.2| X Y"`), because the
sentinel at the very start of the translated text is replaced by a space;
the listing is not the one the claim states. -/
theorem c1_cex :
    tr_fmt [["A".toList, "X".toList], ["B".toList, "Y".toList]] ("AB\n".toList) 1 =
      some ("1.1|AB\n1.2| X Y\n\n".toList) ∧
    ("1.1|AB\n1.2| X Y\n\n".toList : List Char) ≠ ("1.1|AB\n1.2|X Y\n\n".toList) := by
  constructor
  · rfl
  · decide

/-- C1 (amended): on table `[[A,X],[B,Y]]`, text `"AB\n"`, start 1, `tr_fmt`
returns the listing whose numbered lines are `"1.1|AB"` and `"1.2| X Y"` (a
leading space before `X`, produced by the sentinel at the start of the
text), followed by one blank separator line. -/
theorem c1_amended :
    tr_fmt [["A".toList, "X".toList], ["B".toList, "Y".toList]] ("AB\n".toList) 1 =
      some ("1.1|AB\n1.2| X Y\n\n".toList) := by
  rfl

/-- Counterexample for C2: on table `[[foo,bar]]` and text `"Foo FOO foo"`,
`subst` returns `"Foo BAR bar"`, not `"Bar BAR bar"`: the title-case
occurrence `"Foo"` matches none of the three replaced forms. -/
theorem c2_cex :
    subst [["foo".toList, "bar".toList]] ("Foo FOO foo".toList) =
      some ("Foo BAR bar".toList) ∧
    ("Foo BAR bar".toList : List Char) ≠ ("Bar BAR bar".toList) := by
  constructor
  · rfl
  · decide

/-- C2 (amended): on table `[[foo,bar]]` and text `"Foo FOO foo"`, `subst`
returns `"Foo BAR bar"`: each record is applied in table row order as three
literal whole-text replacements (original, lowercased, uppercased term),
mutating the working text after each record; the title-case `"Foo"` is not
replaced. -/
theorem c2_amended :
    subst [["foo".toList, "bar".toList]] ("Foo FOO foo".toList) =
      some ("Foo BAR bar".toList) := by
  rfl

/-! ## C10: the margin-stripping rule -/

/-- C10: in `reflow`'s margin pass, a line is stripped exactly when its
first character is `T`, `X` or the literal pipe `|` and it contains the
terminator `║`; on such a line the span through the first `║` is removed,
and a line beginning with any other character is never stripped. -/
theorem c10_margin (c : Char) (rest : List Char) :
    ((c = 'T' ∨ c = 'X' ∨ c = '|') ∧ rest.contains '║' = true →
      stripLine (c :: rest) = (rest.dropWhile (fun d => !(d = '║'))).tail) ∧
    (¬(c = 'T' ∨ c = 'X' ∨ c = '|') → stripLine (c :: rest) = c :: rest) ∧
    (rest.contains '║' = false → stripLine (c :: rest) = c :: rest) := by
  refine ⟨fun h => ?_, fun h => ?_, fun h => ?_⟩
  · have hm : margChar c = true := by
      rcases h.1 with h1 | h1 | h1 <;> simp [margChar, h1]
    rw [stripLine, if_pos (by rw [hm, h.2]; rfl)]
  · have hm : margChar c = false := by
      simp only [not_or] at h
      simp [margChar, h.1, h.2.1, h.2.2]
    rw [stripLine, if_neg (by rw [hm]; simp)]
  · rw [stripLine, if_neg (by rw [h]; simp)]

/-- Witness for C10: a `T`-margin line is stripped through the first `║`;
a line starting with `Z` is untouched even though it contains `║`. -/
theorem c10_witness :
    stripLine ("Ta║b".toList) = "b".toList ∧
    stripLine ("Za║b".toList) = "Za║b".toList := by
  constructor
  · exact (c10_margin 'T' ("a║b".toList)).1 (by decide)
  · exact (c10_margin 'Z' ("a║b".toList)).2.1 (by decide)

/-! ## C4: idempotence of `subst` -/

theorem isSubstr_of_isPrefixOf (pat s : List Char) (h : pat.isPrefixOf s = true) :
    isSubstr pat s = true := by
  cases s with
  | nil =>
    cases pat with
    | nil => rfl
    | cons p ps => simp [List.isPrefixOf] at h
  | cons c cs => simp [isSubstr, h]

/-- Counterexample for C4: in the table `[[ab,Z],[c,b]]` no term is a
substring of any replacement value, yet on the text `"ac"` one pass of
`subst` gives `"ab"` (the second rule creates the first rule's term) and a
second pass gives `"Z"`: substitution under that restriction is not
idempotent. -/
theorem c4_cex :
    (List.all [["ab".toList, "Z".toList], ["c".toList, "b".toList]] fun r1 =>
      List.all [["ab".toList, "Z".toList], ["c".toList, "b".toList]] fun r2 =>
        !(isSubstr (r1.headD []) (r2.getD 1 []))) = true ∧
    subst [["ab".toList, "Z".toList], ["c".toList, "b".toList]] ("ac".toList) =
      some ("ab".toList) ∧
    subst [["ab".toList, "Z".toList], ["c".toList, "b".toList]] ("ab".toList) =
      some ("Z".toList) ∧
    (some ("Z".toList) : Option (List Char)) ≠ some ("ab".toList) := by
  refine ⟨rfl, rfl, rfl, by decide⟩

/-- C4 (amended): `subst` is idempotent on its output for a table none of
whose terms — in any of the three replaced case forms — occurs in that
output: if `subst table text = some s` and no record's term, lowercased
term or uppercased term is a substring of `s`, then `subst table s = some
s`. -/
theorem c4_amended (table : List (List (List Char))) (text s : List Char)
    (h : subst table text = some s)
    (hn : ∀ rec ∈ table, isSubstr (rec.headD []) s = false ∧
      isSubstr (pyLower (rec.headD [])) s = false ∧
      isSubstr (pyUpper (rec.headD [])) s = false) :
    subst table s = some s := by
  induction table generalizing text with
  | nil => rfl
  | cons rec rest ih =>
    rw [subst, List.foldlM_cons] at h
    cases hr : substRec text rec with
    | none => rw [hr] at h; simp at h
    | some t2 =>
      rw [hr] at h
      simp only [Option.bind_eq_bind, Option.some_bind] at h
      obtain ⟨t1, tB, hrec⟩ : ∃ t1 tB, rec = [t1, tB] := by
        cases rec with
        | nil => simp [substRec] at hr
        | cons a r1 =>
          cases r1 with
          | nil => simp [substRec] at hr
          | cons b r2 =>
            cases r2 with
            | nil => exact ⟨a, b, rfl⟩
            | cons d r3 => simp [substRec] at hr
      have hn1 := hn rec (List.mem_cons_self _ _)
      rw [hrec] at hn1
      simp only [List.headD] at hn1
      have hsrec : substRec s rec = some s := by
        rw [hrec, substRec, pyReplace_of_not_substr _ _ _ hn1.1,
          pyReplace_of_not_substr _ _ _ hn1.2.1,
          pyReplace_of_not_substr _ _ _ hn1.2.2]
      rw [subst, List.foldlM_cons, hsrec]
      simp only [Option.bind_eq_bind, Option.some_bind]
      exact ih t2 h (fun r hr2 => hn r (List.mem_cons_of_mem _ hr2))

/-- Witness for C4 (amended) at table `[[a,b]]`, text `"a"`, output `"b"`. -/
theorem c4_witness : subst [["a".toList, "b".toList]] ("b".toList) = some ("b".toList) :=
  c4_amended [["a".toList, "b".toList]] ("a".toList) ("b".toList) (by rfl) (by decide)

/-! ## C7: `vocab` returns a sub-sequence of the table -/

theorem vocabAux_sublist :
    ∀ (tbl : List (List (List Char))) (copy : List Char)
      (out : List (List (List Char))),
      vocabAux tbl copy = some out → List.Sublist out tbl := by
  intro tbl
  induction tbl with
  | nil =>
    intro copy out h
    cases h
    exact List.nil_sublist _
  | cons rec rest ih =>
    intro copy out h
    rw [vocabAux] at h
    cases h0 : rec.head? with
    | none => rw [h0] at h; simp at h
    | some t0 =>
      rw [h0] at h
      simp only [Option.bind_eq_bind, Option.some_bind] at h
      by_cases hs : isSubstr t0 copy = true
      · rw [if_pos hs] at h
        cases hv : vocabAux rest (pyReplace copy t0 [US]) with
        | none => rw [hv] at h; simp at h
        | some tl =>
          rw [hv] at h
          simp only [Option.bind_eq_bind, Option.some_bind, Option.pure_def,
            Option.some.injEq] at h
          rw [← h]
          exact List.Sublist.cons₂ rec (ih _ tl hv)
      · rw [if_neg hs] at h
        exact List.Sublist.cons rec (ih copy out h)

/-- C7: for every table and every text on which `vocab` returns, the result
is a sub-sequence of the table: every output record is an input record,
unchanged, and the relative row order is preserved (`vocab` appends a
record only when its source term is a substring of the working copy at
that point, so it only ever copies records forward in order). -/
theorem c7_vocab_sublist (table : List (List (List Char))) (text : List Char)
    (out : List (List (List Char))) (h : vocab table text = some out) :
    List.Sublist out table :=
  vocabAux_sublist table text out h

/-- Witness for C7: on table `[[A,X],[B,Y]]` and text `"A"` the vocabulary
is `[[A,X]]`, a sub-sequence of the table. -/
theorem c7_witness :
    List.Sublist [["A".toList, "X".toList]]
      [["A".toList, "X".toList], ["B".toList, "Y".toList]] :=
  c7_vocab_sublist [["A".toList, "X".toList], ["B".toList, "Y".toList]]
    ("A".toList) [["A".toList, "X".toList]] (by rfl)

/-! ## C5: totality of the transformation functions -/

theorem vocabAux_ne_none (tbl : List (List (List Char))) :
    ∀ copy : List Char, (∀ rec ∈ tbl, rec ≠ []) →
      ∃ out, vocabAux tbl copy = some out := by
  induction tbl with
  | nil => exact fun copy _ => ⟨[], rfl⟩
  | cons rec rest ih =>
    intro copy h
    obtain ⟨a, r, hrec⟩ : ∃ a r, rec = a :: r := by
      cases rec with
      | nil => exact absurd rfl (h [] (List.mem_cons_self _ _))
      | cons a r => exact ⟨a, r, rfl⟩
    have h0 : rec.head? = some a := by rw [hrec]; rfl
    rw [vocabAux, h0]
    simp only [Option.bind_eq_bind, Option.some_bind]
    by_cases hs : isSubstr a copy = true
    · rw [if_pos hs]
      obtain ⟨tl, htl⟩ := ih (pyReplace copy a [US])
        (fun r2 hr2 => h r2 (List.mem_cons_of_mem _ hr2))
      exact ⟨rec :: tl, by rw [htl]; rfl⟩
    · rw [if_neg hs]
      exact ih copy (fun r2 hr2 => h r2 (List.mem_cons_of_mem _ hr2))

theorem foldlM_option_some {α β : Type} (f : β → α → Option β) (l : List α)
    (h : ∀ b a, a ∈ l → ∃ b2, f b a = some b2) :
    ∀ b, ∃ r, List.foldlM f b l = some r := by
  induction l with
  | nil => exact fun b => ⟨b, rfl⟩
  | cons a l ih =>
    intro b
    obtain ⟨b2, hb2⟩ := h b a (List.mem_cons_self _ _)
    rw [List.foldlM_cons, hb2]
    simp only [Option.bind_eq_bind, Option.some_bind]
    exact ih (fun b3 a2 ha2 => h b3 a2 (List.mem_cons_of_mem _ ha2)) b2

theorem mapM_option_some {α β : Type} (F : α → Option β) (l : List α)
    (h : ∀ a ∈ l, ∃ b, F a = some b) :
    ∃ out, List.mapM F l = some out := by
  induction l with
  | nil => exact ⟨[], rfl⟩
  | cons a l ih =>
    obtain ⟨b, hb⟩ := h a (List.mem_cons_self _ _)
    obtain ⟨out, hout⟩ := ih (fun a2 ha2 => h a2 (List.mem_cons_of_mem _ ha2))
    refine ⟨b :: out, ?_⟩
    rw [List.mapM_cons, hb, hout]
    rfl

/-- Counterexample for C5: the empty table is accepted by the loader
(`read_table` of the empty input returns it), yet `tr_raw` — hence
`tr_fmt` — raises on it (`table[0]` is an `IndexError`, modelled as
`none`); moreover `tr_fmt` raises even on a nonempty uniform 2-column
table when an empty replacement makes a translated column lose a line
after trimming. -/
theorem c5_cex :
    read_table [] = Except.ok [] ∧
    tr_raw [] ("x".toList) = none ∧
    tr_fmt [["A".toList, []]] ("B\nA\n".toList) 1 = none ∧
    (∀ rec ∈ [["A".toList, ([] : List Char)]], rec.length = 2) := by
  refine ⟨rfl, rfl, rfl, by decide⟩

/-- C5 (amended): `reflow` is total by construction; for every table of
uniform record width `w ≥ 2` (as produced by the loader) and every text,
`vocab` never raises, `subst` never raises when `w = 2`, and `tr_raw`
never raises when the table is nonempty.  (`tr_fmt` enjoys no such
totality: see the counterexample.) -/
theorem c5_amended (table : List (List (List Char))) (text : List Char) (w : Nat)
    (hw : 2 ≤ w) (hrec : ∀ rec ∈ table, rec.length = w) :
    (vocab table text).isSome = true ∧
    (w = 2 → (subst table text).isSome = true) ∧
    (table ≠ [] → (tr_raw table text).isSome = true) := by
  have hne : ∀ rec ∈ table, rec ≠ [] := by
    intro rec hmem he
    have h2 := hrec rec hmem
    rw [he] at h2
    simp only [List.length_nil] at h2
    omega
  have hvoc : ∃ rules, vocab table text = some rules := vocabAux_ne_none table text hne
  obtain ⟨rules, hrules⟩ := hvoc
  refine ⟨by rw [hrules]; rfl, fun hw2 => ?_, fun htne => ?_⟩
  · -- subst: every record has exactly two fields
    have hstep : ∀ (b : List Char) (rec : List (List Char)), rec ∈ table →
        ∃ b2, substRec b rec = some b2 := by
      intro b rec hmem
      have hlen := hrec rec hmem
      rw [hw2] at hlen
      obtain ⟨t1, r1, h1⟩ : ∃ t1 r1, rec = t1 :: r1 := by
        cases rec with
        | nil => simp at hlen
        | cons t1 r1 => exact ⟨t1, r1, rfl⟩
      obtain ⟨t2, r2, h2⟩ : ∃ t2 r2, r1 = t2 :: r2 := by
        cases r1 with
        | nil => rw [h1] at hlen; simp at hlen
        | cons t2 r2 => exact ⟨t2, r2, rfl⟩
      have h3 : r2 = [] := by
        rw [h1, h2] at hlen
        simpa using hlen
      rw [h1, h2, h3, substRec]
      exact ⟨_, rfl⟩
    obtain ⟨r, hr⟩ := foldlM_option_some substRec table hstep text
    rw [subst, hr]
    rfl
  · -- tr_raw
    obtain ⟨first, rest, hfirst⟩ : ∃ first rest, table = first :: rest := by
      cases table with
      | nil => exact absurd rfl htne
      | cons first rest => exact ⟨first, rest, rfl⟩
    have hhead : table.head? = some first := by rw [hfirst]; rfl
    have hmem_rules : ∀ rec ∈ rules, rec ∈ table :=
      fun rec hmem => (vocabAux_sublist table text rules hrules).subset hmem
    have hcols : ∃ cols,
        List.mapM (transCol rules (pyReplace text [US] []))
          (List.range' 1 (first.length - 1)) = some cols := by
      apply mapM_option_some
      intro colNo hcol
      have hcol2 : colNo < w := by
        rcases List.mem_range'_1.mp hcol with ⟨h1, h2⟩
        have hfw : first.length = w := hrec first (by rw [hfirst]; exact List.mem_cons_self _ _)
        rw [hfw] at h2
        omega
      have hstep : ∀ (b : List Char) (rec : List (List Char)), rec ∈ rules →
          ∃ b2, transStep colNo b rec = some b2 := by
        intro b rec hmem
        have hlen : rec.length = w := hrec rec (hmem_rules rec hmem)
        obtain ⟨a, r, hr⟩ : ∃ a r, rec = a :: r := by
          cases rec with
          | nil => rw [← hlen] at hw; simp at hw
          | cons a r => exact ⟨a, r, rfl⟩
        have h0 : rec.head? = some a := by rw [hr]; rfl
        have hg : ∃ tc, rec.get? colNo = some tc :=
          ⟨rec.get ⟨colNo, by rw [hlen]; exact hcol2⟩, List.get?_eq_get _⟩
        obtain ⟨tc, htc⟩ := hg
        refine ⟨pyReplace b a (US :: (tc ++ [US])), ?_⟩
        simp only [transStep, h0, htc, Option.bind_eq_bind, Option.some_bind]
        rfl
      obtain ⟨tr, htr⟩ :=
        foldlM_option_some (transStep colNo) rules hstep (pyReplace text [US] [])
      refine ⟨pyReplace (pyReplace (pyReplace tr [US, '\n'] ['\n']) [US, US] [' '])
        [US] [' '], ?_⟩
      simp only [transCol, htr, Option.bind_eq_bind, Option.some_bind]
      rfl
    obtain ⟨cols, hcolseq⟩ := hcols
    simp only [tr_raw, hrules, hhead, hcolseq, Option.bind_eq_bind, Option.some_bind]
    rfl

/-- Witness for C5 (amended) at the uniform 2-column table `[[A,X]]`. -/
theorem c5_witness :
    (vocab [["A".toList, "X".toList]] ("A".toList)).isSome = true ∧
    (2 = 2 → (subst [["A".toList, "X".toList]] ("A".toList)).isSome = true) ∧
    ([["A".toList, "X".toList]] ≠ [] →
      (tr_raw [["A".toList, "X".toList]] ("A".toList)).isSome = true) :=
  c5_amended [["A".toList, "X".toList]] ("A".toList) 2 (by decide) (by decide)

/-! ## C8: idempotence of `reflow` -/

theorem replaceFuel_single_nil (a : Char) :
    ∀ (f : Nat) (s : List Char), s.length ≤ f →
      replaceFuel [a] [] f s = s.filter (fun c => !(c == a)) := by
  intro f
  induction f with
  | zero =>
    intro s hs
    have h : s.length = 0 := Nat.le_zero.mp hs
    rw [List.length_eq_zero] at h
    subst h
    rfl
  | succ f ih =>
    intro s hs
    cases s with
    | nil => rfl
    | cons c cs =>
      have hcs : cs.length ≤ f := by simpa using Nat.le_of_succ_le_succ hs
      by_cases hac : a = c
      · have hp : ([a]).isPrefixOf (c :: cs) = true := by simp [List.isPrefixOf, hac]
        rw [replaceFuel, if_pos hp]
        simp only [List.length_cons, List.length_nil, List.drop_succ_cons,
          List.drop_zero, List.nil_append]
        rw [ih cs hcs]
        simp [List.filter_cons, hac.symm]
      · have hp : ([a]).isPrefixOf (c :: cs) = false := by simp [List.isPrefixOf, hac]
        rw [replaceFuel, if_neg (by simp [hp]), ih cs hcs, List.filter_cons,
          if_pos (by simp only [Bool.not_eq_true', beq_eq_false_iff_ne]; exact fun h => hac h.symm)]

theorem collapseNl_eq_filter (t : List Char) :
    collapseNl t = t.filter (fun c => !(c == '\n')) := by
  rw [collapseNl, pyReplace, if_neg (by simp)]
  exact replaceFuel_single_nil '\n' t.length t le_rfl

theorem collapseNl_append (a b : List Char) :
    collapseNl (a ++ b) = collapseNl a ++ collapseNl b := by
  simp [collapseNl_eq_filter, List.filter_append]

theorem collapseNl_idem (t : List Char) : collapseNl (collapseNl t) = collapseNl t := by
  simp only [collapseNl_eq_filter, List.filter_filter]
  simp

theorem collapseNl_pass4 (t : List Char) : collapseNl (pass4 t) = collapseNl t := by
  induction t with
  | nil => rfl
  | cons c cs ih =>
    cases cs with
    | nil => rfl
    | cons c2 rest =>
      rw [pass4, collapseNl_append, ih]
      have hpre : collapseNl (if isEnder c && !(isEnder c2) then [c, '\n'] else [c]) =
          collapseNl [c] := by
        split
        · simp [collapseNl_eq_filter, List.filter_cons]
        · rfl
      rw [hpre, show (c :: c2 :: rest) = [c] ++ (c2 :: rest) from rfl, collapseNl_append]

theorem collapseNl_pass5 (t : List Char) : collapseNl (pass5 t) = collapseNl t := by
  induction t with
  | nil => rfl
  | cons c cs ih =>
    cases cs with
    | nil => rfl
    | cons c2 rest =>
      rw [pass5, collapseNl_append, ih]
      have hpre : collapseNl
          (if !(isStarter c) && !(isEnder c) && !(c = '\n') && isStarter c2
           then [c, '\n'] else [c]) = collapseNl [c] := by
        split
        · simp [collapseNl_eq_filter, List.filter_cons]
        · rfl
      rw [hpre, show (c :: c2 :: rest) = [c] ++ (c2 :: rest) from rfl, collapseNl_append]

theorem collapseNl_addNL (t : List Char) : collapseNl (addNL t) = collapseNl t := by
  rw [addNL]
  split
  · rw [collapseNl_append]
    simp [collapseNl_eq_filter, List.filter_cons]
  · rfl

theorem stripMargins_of_id (t : List Char)
    (h : ∀ l ∈ splitSep '\n' t, stripLine l = l) : stripMargins t = t := by
  rw [stripMargins, List.map_congr_left h, List.map_id', joinLines_splitSep]

theorem poetryPass_of_id (t : List Char)
    (h : ∀ l ∈ splitSep '\n' t, poetryLine l = l) : poetryPass t = t := by
  rw [poetryPass, List.map_congr_left h, List.map_id', joinLines_splitSep]

/-- Counterexample for C8: `reflow` is not idempotent.  On `".T║x"` the
first pass breaks the line after the ender `.`, leaving a line `T║x` that
the second pass then margin-strips: `reflow` gives `".\nT║x\n"` but
`reflow ∘ reflow` gives `".\nx\n"`. -/
theorem c8_cex : reflow (reflow (".T║x".toList)) ≠ reflow (".T║x".toList) := by
  decide

/-- C8 (amended): `reflow` is idempotent on its own output provided no line
of that output is margin-like (begins with `T`, `X` or `|` and contains
`║`) and no line is poetry-like (a full-width space followed by 1-15
characters): if every line of `reflow text` is left unchanged by the
margin pass and by the poetry pass, then `reflow (reflow text) = reflow
text`. -/
theorem c8_amended (text : List Char)
    (h : ∀ l ∈ splitSep '\n' (reflow text), stripLine l = l ∧ poetryLine l = l) :
    reflow (reflow text) = reflow text := by
  have h1 : stripMargins (reflow text) = reflow text :=
    stripMargins_of_id _ (fun l hl => (h l hl).1)
  have h2 : poetryPass (reflow text) = reflow text :=
    poetryPass_of_id _ (fun l hl => (h l hl).2)
  have h3 : collapseNl (reflow text) = collapseNl (poetryPass (stripMargins text)) := by
    rw [show reflow text =
        addNL (pass5 (pass4 (collapseNl (poetryPass (stripMargins text))))) from rfl,
      collapseNl_addNL, collapseNl_pass5, collapseNl_pass4, collapseNl_idem]
  have key : reflow (reflow text) = addNL (pass5 (pass4 (collapseNl (reflow text)))) := by
    rw [show reflow (reflow text) = addNL (pass5 (pass4 (collapseNl (poetryPass
        (stripMargins (reflow text)))))) from rfl, h1, h2]
  rw [key, h3]
  rfl

/-- Witness for C8 (amended): `"ab"` reflows to `"ab\n"`, whose lines are
neither margin-like nor poetry-like. -/
theorem c8_witness : reflow (reflow ("ab".toList)) = reflow ("ab".toList) :=
  c8_amended ("ab".toList) (by decide)

/-! ## C3: `read_table` succeeds exactly on well-formed inputs -/

/-- A table line is blank when its trimmed content is empty. -/
def isBlankLine (l : List Char) : Bool := (pyStrip l).isEmpty

/-- The non-blank lines of a loader input. -/
def nonBlankLines (input : List Char) : List (List Char) :=
  (splitSep '\n' input).filter (fun l => !(isBlankLine l))

/-- All non-blank lines yield exactly `w` fields. -/
def rowsOk (w : Nat) (lines : List (List Char)) : Bool :=
  (lines.filter (fun l => !(isBlankLine l))).all (fun l => (fields l).length == w)

/-- Well-formedness of a list of non-blank lines: empty, or the first line
yields more than one field and every later line yields exactly that many. -/
def loaderWfLines : List (List Char) → Bool
  | [] => true
  | l :: ls =>
    decide (1 < (fields l).length) &&
      ls.all (fun l2 => (fields l2).length == (fields l).length)

/-- The claim's well-formedness condition on a loader input: either there is
no non-blank line, or the first non-blank line yields more than one field
and every subsequent non-blank line yields exactly that many. -/
def loaderWf (input : List Char) : Bool :=
  loaderWfLines (nonBlankLines input)

theorem all_space_of_pyStrip_nil (l : List Char) (h : pyStrip l = []) :
    ∀ c ∈ l, pyIsSpace c = true := by
  intro c hc
  have h2 : ∀ c2 ∈ pyRstrip l, pyIsSpace c2 = true :=
    List.dropWhile_eq_nil_iff.mp h
  have hsplit : List.takeWhile pyIsSpace l.reverse ++ List.dropWhile pyIsSpace l.reverse
      = l.reverse := List.takeWhile_append_dropWhile _ _
  have hc2 : c ∈ l.reverse := List.mem_reverse.mpr hc
  rw [← hsplit] at hc2
  rcases List.mem_append.mp hc2 with h3 | h3
  · exact List.mem_takeWhile_imp h3
  · exact h2 c (by rw [pyRstrip]; exact List.mem_reverse.mpr h3)

theorem blank_fields_one (l : List Char) (h : isBlankLine l = true) :
    (fields l).length = 1 := by
  have hs : pyStrip l = [] := by
    rw [isBlankLine] at h
    exact List.isEmpty_iff.mp h
  have hnc : l.contains '|' = false := by
    by_contra hcon
    have hmem : '|' ∈ l := by
      have := Bool.not_eq_false _ |>.mp hcon
      exact List.mem_of_elem_eq_true this
    have := all_space_of_pyStrip_nil l hs '|' hmem
    simp [pyIsSpace] at this
  rw [fields, splitSep_of_not_contains _ _ hnc]
  rfl

theorem pyStrip_ne_nil_of_not_blank (l : List Char) (h : isBlankLine l = false) :
    pyStrip l ≠ [] := by
  intro he
  rw [isBlankLine, he] at h
  simp at h

theorem readTableAux_some (w : Nat) (hw : 2 ≤ w) :
    ∀ (lines : List (List Char)) (tab : List (List (List Char))),
      (rowsOk w lines = true →
        readTableAux lines (some w) tab =
          .ok (tab ++ (lines.filter (fun l => !(isBlankLine l))).map fields)) ∧
      (rowsOk w lines = false →
        ∃ l, l ∈ lines ∧ isBlankLine l = false ∧ (fields l).length ≠ w ∧
          readTableAux lines (some w) tab = .error (tableErrMsg l)) := by
  intro lines
  induction lines with
  | nil =>
    intro tab
    constructor
    · intro _
      simp [readTableAux]
    · intro h
      simp [rowsOk] at h
  | cons line rest ih =>
    intro tab
    by_cases hb : isBlankLine line = true
    · have h1 : (fields line).length = 1 := blank_fields_one line hb
      have hne : (fields line).length ≠ w := by omega
      have hstrip : pyStrip line = [] := by
        rw [isBlankLine] at hb
        exact List.isEmpty_iff.mp hb
      have hred : readTableAux (line :: rest) (some w) tab =
          readTableAux rest (some w) tab := by
        rw [readTableAux, if_neg hne, if_neg (fun hne2 => hne2 hstrip)]
      have hfil : (line :: rest).filter (fun l => !(isBlankLine l)) =
          rest.filter (fun l => !(isBlankLine l)) := by
        rw [List.filter_cons, if_neg (by simp [hb])]
      have hrows : rowsOk w (line :: rest) = rowsOk w rest := by
        rw [rowsOk, hfil, rowsOk]
      constructor
      · intro hall
        rw [hred, hfil, (ih tab).1 (by rw [← hrows]; exact hall)]
      · intro hall
        obtain ⟨l, hl1, hl2, hl3, hl4⟩ := (ih tab).2 (by rw [← hrows]; exact hall)
        exact ⟨l, List.mem_cons_of_mem _ hl1, hl2, hl3, by rw [hred]; exact hl4⟩
    · have hbf : isBlankLine line = false := Bool.not_eq_true _ |>.mp hb
      have hfil : (line :: rest).filter (fun l => !(isBlankLine l)) =
          line :: rest.filter (fun l => !(isBlankLine l)) := by
        rw [List.filter_cons, if_pos (by simp [hbf])]
      have hrows : rowsOk w (line :: rest) =
          (((fields line).length == w) && rowsOk w rest) := by
        rw [rowsOk, hfil, List.all_cons, rowsOk]
      by_cases hlw : (fields line).length = w
      · have hred : readTableAux (line :: rest) (some w) tab =
            readTableAux rest (some w) (tab ++ [fields line]) := by
          rw [readTableAux, if_pos hlw]
        constructor
        · intro hall
          rw [hrows] at hall
          have h2 : rowsOk w rest = true := by
            rcases Bool.and_eq_true_iff.mp hall with ⟨_, h2⟩
            exact h2
          rw [hred, hfil, (ih (tab ++ [fields line])).1 h2]
          simp
        · intro hall
          rw [hrows] at hall
          have h2 : rowsOk w rest = false := by
            rcases Bool.and_eq_false_iff.mp hall with h2 | h2
            · simp [hlw] at h2
            · exact h2
          obtain ⟨l, hl1, hl2, hl3, hl4⟩ := (ih (tab ++ [fields line])).2 h2
          exact ⟨l, List.mem_cons_of_mem _ hl1, hl2, hl3, by rw [hred]; exact hl4⟩
      · have hred : readTableAux (line :: rest) (some w) tab =
            .error (tableErrMsg line) := by
          rw [readTableAux, if_neg hlw,
            if_pos (pyStrip_ne_nil_of_not_blank line hbf)]
        constructor
        · intro hall
          rw [hrows] at hall
          rcases Bool.and_eq_true_iff.mp hall with ⟨h2, _⟩
          rw [beq_iff_eq] at h2
          exact absurd h2 hlw
        · intro _
          exact ⟨line, List.mem_cons_self _ _, hbf, hlw, hred⟩

theorem readTableAux_none :
    ∀ lines : List (List Char),
      (loaderWfLines (lines.filter (fun l => !(isBlankLine l))) = true →
        readTableAux lines none [] =
          .ok ((lines.filter (fun l => !(isBlankLine l))).map fields)) ∧
      (loaderWfLines (lines.filter (fun l => !(isBlankLine l))) = false →
        ∃ l, l ∈ lines ∧ isBlankLine l = false ∧
          readTableAux lines none [] = .error (tableErrMsg l)) := by
  intro lines
  induction lines with
  | nil =>
    constructor
    · intro _
      rfl
    · intro h
      simp [loaderWfLines] at h
  | cons line rest ih =>
    by_cases hb : isBlankLine line = true
    · have h1 : (fields line).length = 1 := blank_fields_one line hb
      have hstrip : pyStrip line = [] := by
        rw [isBlankLine] at hb
        exact List.isEmpty_iff.mp hb
      have hred : readTableAux (line :: rest) none [] = readTableAux rest none [] := by
        rw [readTableAux, if_neg (by omega), if_neg (fun hne2 => hne2 hstrip)]
      have hfil : (line :: rest).filter (fun l => !(isBlankLine l)) =
          rest.filter (fun l => !(isBlankLine l)) := by
        rw [List.filter_cons, if_neg (by simp [hb])]
      rw [hred, hfil]
      constructor
      · exact ih.1
      · intro hall
        obtain ⟨l, hl1, hl2, hl3⟩ := ih.2 hall
        exact ⟨l, List.mem_cons_of_mem _ hl1, hl2, hl3⟩
    · have hbf : isBlankLine line = false := Bool.not_eq_true _ |>.mp hb
      have hfil : (line :: rest).filter (fun l => !(isBlankLine l)) =
          line :: rest.filter (fun l => !(isBlankLine l)) := by
        rw [List.filter_cons, if_pos (by simp [hbf])]
      rw [hfil]
      by_cases hlw : 1 < (fields line).length
      · have hw2 : 2 ≤ (fields line).length := hlw
        have hred : readTableAux (line :: rest) none [] =
            readTableAux rest (some (fields line).length) [fields line] := by
          rw [readTableAux, if_pos hlw, List.nil_append]
        constructor
        · intro hall
          rw [loaderWfLines, Bool.and_eq_true_iff] at hall
          have h2 : rowsOk (fields line).length rest = true := by
            rw [rowsOk]
            exact hall.2
          rw [hred, (readTableAux_some _ hw2 rest [fields line]).1 h2]
          simp
        · intro hall
          rw [loaderWfLines, Bool.and_eq_false_iff] at hall
          have h2 : rowsOk (fields line).length rest = false := by
            rcases hall with h2 | h2
            · simp [hlw] at h2
            · rw [rowsOk]
              exact h2
          obtain ⟨l, hl1, hl2, hl3, hl4⟩ :=
            (readTableAux_some _ hw2 rest [fields line]).2 h2
          exact ⟨l, List.mem_cons_of_mem _ hl1, hl2, by rw [hred]; exact hl4⟩
      · have hred : readTableAux (line :: rest) none [] = .error (tableErrMsg line) := by
          rw [readTableAux, if_neg hlw,
            if_pos (pyStrip_ne_nil_of_not_blank line hbf)]
        constructor
        · intro hall
          rw [loaderWfLines, Bool.and_eq_true_iff] at hall
          rcases hall with ⟨h2, _⟩
          simp [hlw] at h2
        · intro _
          exact ⟨line, List.mem_cons_self _ _, hbf, hred⟩

/-- C3: `read_table` returns the trimmed-and-split records of the non-blank
lines, in order with blank lines skipped, exactly when the first non-blank
line yields more than one field and every later non-blank line yields that
many fields; otherwise it returns an error whose message is
`"Table error: "` followed by the offending non-blank line's trimmed
content, and no table is returned. -/
theorem c3_read_table (input : List Char) :
    (loaderWf input = true →
      read_table input = .ok ((nonBlankLines input).map fields)) ∧
    (loaderWf input = false →
      ∃ l, l ∈ splitSep '\n' input ∧ isBlankLine l = false ∧
        read_table input = .error (("Table error: ".toList) ++ pyStrip l)) := by
  constructor
  · intro h
    exact (readTableAux_none (splitSep '\n' input)).1 h
  · intro h
    obtain ⟨l, hl1, hl2, hl3⟩ := (readTableAux_none (splitSep '\n' input)).2 h
    exact ⟨l, hl1, hl2, hl3⟩

/-- Witness for C3: the spec's own example
`"A|B\n  C  |  D  \n\nE|F"` loads as `[[A,B],[C,D],[E,F]]`. -/
theorem c3_witness :
    read_table ("A|B\n  C  |  D  \n\nE|F".toList) =
      Except.ok [["A".toList, "B".toList], ["C".toList, "D".toList],
        ["E".toList, "F".toList]] :=
  (c3_read_table ("A|B\n  C  |  D  \n\nE|F".toList)).1 (by decide)

/-! ## C9: `tr_file` against a single `tr_fmt` run -/

theorem pyLines_flatten (t : List Char) : (pyLines t).flatten = t := by
  induction t with
  | nil => rfl
  | cons c cs ih =>
    by_cases hc : c = '\n'
    · rw [pyLines, if_pos hc, List.flatten_cons, ih, hc]
      rfl
    · rw [pyLines, if_neg hc]
      rcases hp : pyLines cs with _ | ⟨l, ls⟩
      · rw [hp] at ih
        simp only [List.flatten_nil] at ih
        simp [← ih]
      · rw [hp] at ih
        simp only [List.flatten_cons] at ih ⊢
        rw [List.cons_append, ih]

theorem pyLines_ne_nil : ∀ t : List Char, t ≠ [] → pyLines t ≠ [] := by
  intro t ht
  cases t with
  | nil => exact absurd rfl ht
  | cons c cs =>
    rw [pyLines]
    split
    · simp
    · split <;> simp

theorem pyLines_length_count :
    ∀ t : List Char, t.getLast? = some '\n' → (pyLines t).length = t.count '\n' := by
  intro t
  induction t with
  | nil => intro h; simp at h
  | cons c cs ih =>
    intro h
    by_cases hc : c = '\n'
    · rw [pyLines, if_pos hc, List.length_cons, hc, List.count_cons_self]
      cases cs with
      | nil => rfl
      | cons c2 cs2 =>
        rw [List.getLast?_cons_cons] at h
        rw [ih h]
    · have hcs : cs ≠ [] := by
        intro he
        rw [he] at h
        simp only [List.getLast?_singleton, Option.some.injEq] at h
        exact hc h
      have hlast : cs.getLast? = some '\n' := by
        cases cs with
        | nil => exact absurd rfl hcs
        | cons c2 cs2 => rw [List.getLast?_cons_cons] at h; exact h
      have hcount : (c :: cs).count '\n' = cs.count '\n' := by
        rw [List.count_cons]
        simp [hc]
      rw [pyLines, if_neg hc, hcount]
      rcases hp : pyLines cs with _ | ⟨l, ls⟩
      · exact absurd hp (pyLines_ne_nil cs hcs)
      · have := ih hlast
        rw [hp] at this
        simpa using this

theorem trFileAux_no_flush (table : List (List (List Char))) :
    ∀ (lines : List (List Char)) (buf acc : List Char) (n : Nat),
      (∀ i, i < lines.length → (n + i) % 100 ≠ 0) →
      trFileAux table lines buf n acc =
        some (acc, buf ++ lines.flatten, n + lines.length) := by
  intro lines
  induction lines with
  | nil =>
    intro buf acc n _
    simp [trFileAux]
  | cons line rest ih =>
    intro buf acc n h
    have h0 : n % 100 ≠ 0 := by simpa using h 0 (by simp)
    have h2 : ∀ i, i < rest.length → ((n + 1) + i) % 100 ≠ 0 := by
      intro i hi
      have h3 := h (i + 1) (by simpa using Nat.succ_lt_succ hi)
      have h4 : n + (i + 1) = n + 1 + i := by omega
      rw [h4] at h3
      exact h3
    rw [trFileAux, if_neg h0, ih (buf ++ line) acc (n + 1) h2]
    simp only [Option.some.injEq, Prod.mk.injEq, List.append_assoc, List.flatten_cons,
      List.length_cons, true_and]
    omega

/-- Counterexample for C9: on the one-line input `"A"` with no trailing
newline, `tr_file` computes the final offset as `line_no - count('\n') = 2`
and numbers the listing from 2, while a single `tr_fmt` run over the whole
input numbers it from 1. -/
theorem c9_cex :
    tr_file [["A".toList, "X".toList]] ("A".toList) =
      some ("2.1|A\n2.2| X\n\n".toList) ∧
    tr_fmt [["A".toList, "X".toList]] ("A".toList) 1 =
      some ("1.1|A\n1.2| X\n\n".toList) ∧
    (some ("2.1|A\n2.2| X\n\n".toList) : Option (List Char)) ≠
      some ("1.1|A\n1.2| X\n\n".toList) := by
  refine ⟨rfl, rfl, by decide⟩

/-- C9 (amended): for inputs of at most 99 lines whose final line is
newline-terminated (or which are empty), no intermediate flush occurs and
the end-of-input offset computation yields 1, so the output written by
`tr_file` is exactly `tr_fmt(table, whole input, 1)` — including agreement
of the failure cases. -/
theorem c9_amended (table : List (List (List Char))) (input : List Char)
    (hlen : (pyLines input).length ≤ 99)
    (hterm : input = [] ∨ input.getLast? = some '\n') :
    tr_file table input = tr_fmt table input 1 := by
  have hnoflush : ∀ i, i < (pyLines input).length → (1 + i) % 100 ≠ 0 := by
    intro i hi
    have hlt : 1 + i < 100 := by omega
    rw [Nat.mod_eq_of_lt hlt]
    omega
  have haux := trFileAux_no_flush table (pyLines input) [] [] 1 hnoflush
  have hflat : (pyLines input).flatten = input := pyLines_flatten input
  have hcount : input.count '\n' = (pyLines input).length := by
    rcases hterm with h | h
    · rw [h]
      rfl
    · exact (pyLines_length_count input h).symm
  rw [tr_file, haux]
  simp only [Option.bind_eq_bind, Option.some_bind, List.nil_append]
  rw [hflat, hcount, Nat.add_sub_cancel]
  cases tr_fmt table input 1 <;> simp

/-- Witness for C9 (amended): the two-line-safe input `"A\n"`. -/
theorem c9_witness :
    tr_file [["A".toList, "X".toList]] ("A\n".toList) =
      tr_fmt [["A".toList, "X".toList]] ("A\n".toList) 1 :=
  c9_amended [["A".toList, "X".toList]] ("A\n".toList) (by decide) (by decide)

/-! ## C6: the shape of a `tr_fmt` listing -/

theorem contains_eq_false_of_not_mem {a : Char} {l : List Char} (h : a ∉ l) :
    l.contains a = false := by
  by_contra h2
  exact h (List.mem_of_elem_eq_true (Bool.not_eq_false _ |>.mp h2))

theorem mapM_option_eq_map {α β : Type} (F : α → Option β) (dflt : β) :
    ∀ (l : List α) (out : List β), List.mapM F l = some out →
      out = l.map (fun a => (F a).getD dflt) ∧ ∀ a ∈ l, (F a).isSome = true := by
  intro l
  induction l with
  | nil =>
    intro out h
    cases h
    exact ⟨rfl, by simp⟩
  | cons a l ih =>
    intro out h
    rw [List.mapM_cons] at h
    cases hF : F a with
    | none => rw [hF] at h; simp at h
    | some b =>
      rw [hF] at h
      simp only [Option.bind_eq_bind, Option.some_bind] at h
      cases hM : List.mapM F l with
      | none => rw [hM] at h; simp at h
      | some out2 =>
        rw [hM] at h
        simp only [Option.some_bind, Option.pure_def, Option.some.injEq] at h
        obtain ⟨h1, h2⟩ := ih out2 hM
        constructor
        · rw [← h, List.map_cons, ← h1, hF]
          rfl
        · intro a2 ha2
          rcases List.mem_cons.mp ha2 with he | hm
          · rw [he, hF]
            rfl
          · exact h2 a2 hm

theorem getD_mem_or_eq {α : Type} (l : List α) (n : Nat) (d : α) :
    l.getD n d ∈ l ∨ l.getD n d = d := by
  rw [List.getD_eq_get?]
  cases h : l.get? n with
  | none => right; rfl
  | some a => left; simpa using List.get?_mem h

theorem splitSep_flatten_lines :
    ∀ (bodies : List (List Char)), (∀ b ∈ bodies, b.contains '\n' = false) →
      ∀ r : List Char,
        splitSep '\n' ((bodies.map (fun b => b ++ ['\n'])).flatten ++ r) =
          bodies ++ splitSep '\n' r := by
  intro bodies
  induction bodies with
  | nil =>
    intro _ r
    simp
  | cons b bs ih =>
    intro hb r
    rw [List.map_cons, List.flatten_cons]
    have hb1 : b.contains '\n' = false := hb b (List.mem_cons_self _ _)
    have hshape : (b ++ ['\n']) ++ ((bs.map (fun b2 => b2 ++ ['\n'])).flatten ++ r) =
        b ++ '\n' :: ((bs.map (fun b2 => b2 ++ ['\n'])).flatten ++ r) := by
      simp [List.append_assoc]
    rw [List.append_assoc, hshape, splitSep_append _ _ _ hb1,
      ih (fun b2 h2 => hb b2 (List.mem_cons_of_mem _ h2)) r]
    rfl

theorem splitSep_groups :
    ∀ (idx : List Nat) (bodies : Nat → List (List Char)),
      (∀ i ∈ idx, ∀ b ∈ bodies i, b.contains '\n' = false) →
      splitSep '\n' ((idx.map
          (fun i => ((bodies i).map (fun b => b ++ ['\n'])).flatten ++ ['\n'])).flatten)
        = (idx.flatMap (fun i => bodies i ++ [[]])) ++ [[]] := by
  intro idx
  induction idx with
  | nil =>
    intro bodies _
    rfl
  | cons i rest ih =>
    intro bodies hb
    rw [List.map_cons, List.flatten_cons, List.append_assoc,
      splitSep_flatten_lines (bodies i) (hb i (List.mem_cons_self _ _))]
    have hnl : splitSep '\n' (['\n'] ++
        (rest.map (fun i2 => ((bodies i2).map (fun b => b ++ ['\n'])).flatten ++
          ['\n'])).flatten) =
        [] :: splitSep '\n' ((rest.map
          (fun i2 => ((bodies i2).map (fun b => b ++ ['\n'])).flatten ++ ['\n'])).flatten) := by
      rw [List.singleton_append, splitSep, if_pos rfl]
    rw [hnl, ih bodies (fun i2 h2 => hb i2 (List.mem_cons_of_mem _ h2)), List.flatMap_cons]
    simp [List.append_assoc]

theorem digitChar_ne_nl : ∀ d, d < 10 → digitChar d ≠ '\n' := by decide

theorem toDecAux_not_nl : ∀ (f n : Nat), '\n' ∉ toDecAux f n := by
  intro f
  induction f with
  | zero =>
    intro n h
    simp [toDecAux] at h
  | succ f ih =>
    intro n h
    rw [toDecAux] at h
    split at h
    · next hlt =>
      exact digitChar_ne_nl n hlt (List.mem_singleton.mp h).symm
    · rcases List.mem_append.mp h with h2 | h2
      · exact ih _ h2
      · exact digitChar_ne_nl (n % 10) (Nat.mod_lt _ (by omega))
          (List.mem_singleton.mp h2).symm

theorem toDec_not_mem_nl (n : Nat) : '\n' ∉ toDec n :=
  toDecAux_not_nl (n + 1) n

theorem toDec_ne_nil (n : Nat) : toDec n ≠ [] := by
  rw [toDec, toDecAux]
  split <;> simp

theorem fmtBody_not_nl (n c : Nat) (s : List Char) (hs : '\n' ∉ s) :
    (fmtBody n c s).contains '\n' = false := by
  apply contains_eq_false_of_not_mem
  intro h
  rw [fmtBody] at h
  rcases List.mem_append.mp h with h2 | h2
  · exact toDec_not_mem_nl n h2
  · rcases List.mem_cons.mp h2 with h3 | h3
    · exact absurd h3 (by decide)
    · rcases List.mem_append.mp h3 with h4 | h4
      · exact toDec_not_mem_nl c h4
      · rcases List.mem_cons.mp h4 with h5 | h5
        · exact absurd h5 (by decide)
        · exact hs h5

theorem fmtBody_ne_nil (n c : Nat) (s : List Char) : fmtBody n c s ≠ [] := by
  rw [fmtBody]
  intro h
  exact toDec_ne_nil n (List.append_eq_nil.mp h).1

theorem count_nonempty_blocks (w : Nat) :
    ∀ (idx : List Nat) (g : Nat → List (List Char)),
      (∀ i ∈ idx, (g i).length = w ∧ ∀ b ∈ g i, b.isEmpty = false) →
      (((idx.flatMap (fun i => g i ++ [[]])) ++ [[]]).filter
        (fun l : List Char => !(l.isEmpty))).length = idx.length * w := by
  intro idx
  induction idx with
  | nil =>
    intro g _
    simp
  | cons i rest ih =>
    intro g hg
    rw [List.flatMap_cons, List.append_assoc, List.append_assoc, List.filter_append,
      List.length_append]
    have h1 : List.filter (fun l : List Char => !(l.isEmpty)) (g i) = g i :=
      List.filter_eq_self.mpr (fun b hb => by
        rw [(hg i (List.mem_cons_self _ _)).2 b hb]; rfl)
    rw [h1]
    have h2 : ([[]] ++ ((rest.flatMap (fun i2 => g i2 ++ [[]])) ++ [[]])).filter
        (fun l : List Char => !(l.isEmpty)) =
        ((rest.flatMap (fun i2 => g i2 ++ [[]])) ++ [[]]).filter
          (fun l : List Char => !(l.isEmpty)) := by
      rw [List.singleton_append, List.filter_cons]
      simp
    rw [h2, ih g (fun i2 h => hg i2 (List.mem_cons_of_mem _ h)),
      (hg i (List.mem_cons_self _ _)).1, List.length_cons]
    ring

theorem tr_raw_head (table : List (List (List Char))) (text : List Char)
    (collection : List (List Char)) (h : tr_raw table text = some collection) :
    ∃ cols, collection = pyReplace text [US] [] :: cols := by
  rw [tr_raw] at h
  cases hv : vocab table text with
  | none => rw [hv] at h; simp at h
  | some rules =>
    rw [hv] at h
    simp only [Option.bind_eq_bind, Option.some_bind] at h
    cases hf : table.head? with
    | none => rw [hf] at h; simp at h
    | some first =>
      rw [hf] at h
      simp only [Option.some_bind] at h
      cases hm : List.mapM (transCol rules (pyReplace text [US] []))
          (List.range' 1 (first.length - 1)) with
      | none => rw [hm] at h; simp at h
      | some cols =>
        rw [hm] at h
        simp only [Option.some_bind, Option.pure_def, Option.some.injEq] at h
        exact ⟨cols, h.symm⟩

/-- Counterexample for C6: a chunk that is empty after trimming still
produces numbered listing entries: on table `[[A,X]]`, the empty text and
start 1, `tr_fmt` emits the two numbered lines `"1.1|"` and `"1.2|"`
(followed by the blank separator), not zero entries. -/
theorem c6_cex :
    tr_fmt [["A".toList, "X".toList]] [] 1 = some ("1.1|\n1.2|\n\n".toList) ∧
    ((splitSep '\n' ("1.1|\n1.2|\n\n".toList)).filter
      (fun l : List Char => !(l.isEmpty))).length = 2 := by
  refine ⟨rfl, by decide⟩

/-- C6 (amended): whenever `tr_fmt` returns a listing, the listing splits
into exactly one numbered line per (source line, table column) pair —
where the source lines are the lines of the sentinel-cleaned text after
trailing whitespace is trimmed, an empty-after-trim chunk counting as one
empty source line — each numbered line of the form
`fmtBody (start + i) (c + 1) content`, so line numbers start at `start`
and increment by 1 per source line, with one blank separator line after
each group; consequently the number of numbered (non-blank) lines equals
(source line count) × (table column count). -/
theorem c6_amended (table : List (List (List Char))) (text : List Char)
    (start : Nat) (L : List Char) (h : tr_fmt table text start = some L) :
    ∃ content : Nat → Nat → List Char,
      splitSep '\n' L =
        ((List.range (splitSep '\n' (pyRstrip (pyReplace text [US] []))).length).flatMap
          (fun i => ((List.range (table.headD []).length).map
            (fun c => fmtBody (start + i) (c + 1) (content i c))) ++ [[]])) ++ [[]] ∧
      ((splitSep '\n' L).filter (fun l : List Char => !(l.isEmpty))).length =
        (splitSep '\n' (pyRstrip (pyReplace text [US] []))).length *
          (table.headD []).length := by
  rw [tr_fmt] at h
  rcases Option.bind_eq_some.mp h with ⟨collection, hraw, h⟩
  rcases Option.bind_eq_some.mp h with ⟨first, hfirst, h⟩
  rcases Option.bind_eq_some.mp h with ⟨c0, hc0, h⟩
  rcases Option.bind_eq_some.mp h with ⟨groups, hg, hL⟩
  have hLe : L = groups.flatten := by
    simpa using hL.symm
  obtain ⟨cols, hcol⟩ := tr_raw_head table text collection hraw
  have hc0eq : c0 = splitSep '\n' (pyRstrip (pyReplace text [US] [])) := by
    rw [hcol] at hc0
    simp only [List.map_cons, List.head?_cons, Option.some.injEq] at hc0
    exact hc0.symm
  have hheadD : table.headD [] = first := by
    rw [List.headD_eq_head?, hfirst]
    rfl
  obtain ⟨hgroups_eq, hgroups_some⟩ :=
    mapM_option_eq_map (fmtGroup (collection.map (fun s => splitSep '\n' (pyRstrip s)))
      first.length start) [] (List.range c0.length) groups hg
  have hgroup : ∀ i ∈ List.range c0.length,
      (fmtGroup (collection.map (fun s => splitSep '\n' (pyRstrip s)))
          first.length start i).getD [] =
        (((List.range first.length).map (fun c => fmtBody (start + i) (c + 1)
          (((collection.map (fun s => splitSep '\n' (pyRstrip s))).getD c []).getD i
            []))).map (fun b => b ++ ['\n'])).flatten ++ ['\n'] ∧
      ∀ b ∈ (List.range first.length).map (fun c => fmtBody (start + i) (c + 1)
          (((collection.map (fun s => splitSep '\n' (pyRstrip s))).getD c []).getD i [])),
        b.contains '\n' = false := by
    intro i hi
    obtain ⟨gv, hgv⟩ := Option.isSome_iff_exists.mp (hgroups_some i hi)
    have hgvu := hgv
    rw [fmtGroup] at hgvu
    rcases Option.bind_eq_some.mp hgvu with ⟨cells, hcells, hgv2⟩
    have hgveq : gv = cells.flatten ++ ['\n'] := by
      simpa using hgv2.symm
    obtain ⟨hcells_eq, hcells_some⟩ :=
      mapM_option_eq_map (fmtCell (collection.map (fun s => splitSep '\n' (pyRstrip s)))
        start i) [] (List.range first.length) cells hcells
    have hcell : ∀ c ∈ List.range first.length,
        (fmtCell (collection.map (fun s => splitSep '\n' (pyRstrip s))) start i c).getD []
          = fmtBody (start + i) (c + 1)
              (((collection.map (fun s => splitSep '\n' (pyRstrip s))).getD c []).getD i [])
            ++ ['\n'] ∧
        '\n' ∉ ((collection.map (fun s => splitSep '\n' (pyRstrip s))).getD c []).getD i
          [] := by
      intro c hc
      obtain ⟨cv, hcv⟩ := Option.isSome_iff_exists.mp (hcells_some c hc)
      have hcvu := hcv
      rw [fmtCell] at hcvu
      rcases Option.bind_eq_some.mp hcvu with ⟨col, hcol2, hcv2⟩
      rcases Option.bind_eq_some.mp hcv2 with ⟨line, hline, hcv3⟩
      have hcveq : cv = fmtBody (start + i) (c + 1) line ++ ['\n'] := by
        simpa using hcv3.symm
      have hcontent :
          ((collection.map (fun s => splitSep '\n' (pyRstrip s))).getD c []).getD i []
            = line := by
        rw [List.getD_eq_get?, List.getD_eq_get?, hcol2, Option.getD_some, hline,
          Option.getD_some]
      have hnl : '\n' ∉ line := by
        obtain ⟨s, _, hseq⟩ := List.mem_map.mp (List.get?_mem hcol2)
        intro hmem
        have hfalse : line.contains '\n' = false :=
          mem_splitSep_not_contains '\n' (pyRstrip s) line
            (by rw [hseq]; exact List.get?_mem hline)
        have htrue : line.contains '\n' = true := List.elem_eq_true_of_mem hmem
        rw [hfalse] at htrue
        exact Bool.noConfusion htrue
      refine ⟨?_, by rw [hcontent]; exact hnl⟩
      rw [hcv, Option.getD_some, hcveq, hcontent]
    constructor
    · rw [hgv, Option.getD_some, hgveq, hcells_eq,
        List.map_congr_left (fun c hc => (hcell c hc).1), List.map_map]
      rfl
    · intro b hb
      obtain ⟨c, hc, hbe⟩ := List.mem_map.mp hb
      rw [← hbe]
      apply fmtBody_not_nl
      exact (hcell c hc).2
  have hsplit := splitSep_groups (List.range c0.length)
    (fun i => (List.range first.length).map (fun c => fmtBody (start + i) (c + 1)
      (((collection.map (fun s => splitSep '\n' (pyRstrip s))).getD c []).getD i [])))
    (fun i hi => (hgroup i hi).2)
  simp only [] at hsplit
  have hcount := count_nonempty_blocks first.length (List.range c0.length)
    (fun i => (List.range first.length).map (fun c => fmtBody (start + i) (c + 1)
      (((collection.map (fun s => splitSep '\n' (pyRstrip s))).getD c []).getD i [])))
    (fun i hi => ⟨by simp, fun b hb => by
      obtain ⟨c, hc, hbe⟩ := List.mem_map.mp hb
      rw [← hbe]
      exact Bool.eq_false_iff.mpr (fun ht => fmtBody_ne_nil _ _ _ (List.isEmpty_iff.mp ht))⟩)
  simp only [] at hcount
  refine ⟨fun i c =>
    ((collection.map (fun s => splitSep '\n' (pyRstrip s))).getD c []).getD i [], ?_, ?_⟩
  · rw [hLe, hgroups_eq, List.map_congr_left (fun i hi => (hgroup i hi).1), hsplit,
      hc0eq, hheadD]
  · rw [hLe, hgroups_eq, List.map_congr_left (fun i hi => (hgroup i hi).1), hsplit,
      hcount, List.length_range, hc0eq, hheadD]

/-- Witness for C6 (amended): table `[[B,Y]]`, text `"B\n"`, start 3. -/
theorem c6_witness :
    ∃ content : Nat → Nat → List Char,
      splitSep '\n' ("3.1|B\n3.2| Y\n\n".toList) =
        ((List.range (splitSep '\n'
            (pyRstrip (pyReplace ("B\n".toList) [US] []))).length).flatMap
          (fun i => ((List.range ([["B".toList, "Y".toList]].headD []).length).map
            (fun c => fmtBody (3 + i) (c + 1) (content i c))) ++ [[]])) ++ [[]] ∧
      ((splitSep '\n' ("3.1|B\n3.2| Y\n\n".toList)).filter
        (fun l : List Char => !(l.isEmpty))).length =
        (splitSep '\n' (pyRstrip (pyReplace ("B\n".toList) [US] []))).length *
          ([["B".toList, "Y".toList]].headD []).length :=
  c6_amended [["B".toList, "Y".toList]] ("B\n".toList) 3
    ("3.1|B\n3.2| Y\n\n".toList) (by rfl)
